import Mathlib

/-!
# Verification of the p-adic generic parent layer

Shallow embedding of `sage/rings/padics/padic_generic.py`: the ring/field
descriptor with its comparison (`__richcmp__`), the `fraction_field` /
`integer_ring` transitions, the `teichmuller` precision handling, and the
precision-tracking arithmetic model (capped-relative, capped-absolute,
fixed-modulus, floating-point) that the file's `_test_*` methods specify.

The element arithmetic, the Teichmuller lift iteration and the logarithm
series live in element classes outside this file; where a claim depends on
them they are modelled from the specification, as indicated by the doc
comments of the corresponding definitions.
-/

set_option maxHeartbeats 1000000

namespace PadicSpec

/-- The four precision variants of a p-adic parent (spec section 3;
the source dispatches on `is_fixed_mod` / `is_capped_absolute` /
`is_capped_relative` / `is_floating_point` predicates). -/
inductive Variant where
  | fixedMod
  | cappedAbs
  | cappedRel
  | floatingPoint
deriving DecidableEq

/-- A p-adic ring/field descriptor: `pAdicGeneric.__init__` configures a
parent with a prime, a precision cap and print options; the variant tag and
field-ness are fixed by the concrete subclass.  The print configuration
(`pAdicPrinter`, outside this repository) is abstracted into a single
comparable token, faithful to the fact that `__richcmp__` delegates the
final comparison to `self._printer.richcmp_modes(other._printer, op)`. -/
structure pAdicRing where
  prime : ℕ
  precision_cap : ℕ
  variant : Variant
  print_cfg : ℕ
  is_field : Bool
deriving DecidableEq

/-- `pAdicGeneric.__richcmp__` (padic_generic.py lines 148-181): compare the
primes; if they differ return the comparison of the primes
(`richcmp_not_equal`); otherwise compare the precision caps; if they differ
return that comparison; otherwise delegate to the printer comparison.
The variant tag and field-ness are never consulted. -/
def richcmp (R S : pAdicRing) : Ordering :=
  if R.prime ≠ S.prime then compare R.prime S.prime
  else if R.precision_cap ≠ S.precision_cap then compare R.precision_cap S.precision_cap
  else compare R.print_cfg S.print_cfg

/-- The equality operator on parents: `R == S` holds when `__richcmp__`
resolves to equality. -/
def ringEq (R S : pAdicRing) : Bool := richcmp R S == Ordering.eq

/-- Modelled from the spec: the variant change performed by
`self.change(field=True, ...)` (in `local_generic.py`, outside this
repository); the docstring of `fraction_field` records that the fraction
field of a capped absolute ring is capped relative and that of a fixed
modulus ring is floating point. -/
def fraction_field_variant : Variant → Variant
  | Variant.cappedAbs => Variant.cappedRel
  | Variant.fixedMod => Variant.floatingPoint
  | v => v

/-- Modelled from the spec: `self.change(field=b, **print_mode)` (in
`local_generic.py`, outside this repository) produces a parent with the same
prime and precision cap, the requested field-ness (mapping the variant when
moving to the fraction field), and the print configuration replaced when
print options are supplied. -/
def change_parent (R : pAdicRing) (to_field : Bool) (print_mode : Option ℕ) : pAdicRing :=
  { R with
    is_field := to_field
    variant := if to_field then fraction_field_variant R.variant else R.variant
    print_cfg := print_mode.getD R.print_cfg }

/-- `pAdicGeneric.fraction_field` (padic_generic.py lines 360-398): if the
parent is already a field and no print mode is supplied, return the parent
itself; otherwise change to a field, overriding print options if given. -/
def fraction_field (R : pAdicRing) (print_mode : Option ℕ) : pAdicRing :=
  if R.is_field ∧ print_mode = none then R
  else change_parent R true print_mode

/-- `pAdicGeneric.integer_ring` (padic_generic.py lines 400-436): if the
parent is not a field and no print mode is supplied, return the parent
itself; otherwise change to a non-field, overriding print options if given. -/
def integer_ring (R : pAdicRing) (print_mode : Option ℕ) : pAdicRing :=
  if R.is_field = false ∧ print_mode = none then R
  else change_parent R false print_mode

/-- `pAdicGeneric.residue_class_field` (padic_generic.py lines 297-317)
returns `GF(self.prime())`; its order is the prime. -/
def residue_class_field_order (R : pAdicRing) : ℕ := R.prime

/-- The precision actually used by `pAdicGeneric.teichmuller`
(padic_generic.py lines 485-488): the precision cap when no precision is
requested, otherwise the requested precision truncated to the cap. -/
def teichmuller_prec (R : pAdicRing) (prec : Option ℕ) : ℕ :=
  match prec with
  | none => R.precision_cap
  | some q => min q R.precision_cap

/-- Modular inverse, via the computable inverse of `ZMod n`; used for the
unit-part inversion that division performs (element classes, outside this
repository; modelled from the spec's ElementArithmetic description). -/
def modInv (a n : ℕ) : ℕ := ((a : ZMod n)⁻¹).val

/-- Modelled from the spec: a nonzero capped-relative (and floating-point)
element, as stored by the element classes outside this repository: a
valuation `v`, a unit part `u` known modulo `p ^ r`, and the relative
precision `r`, positive and at most the cap.  The element denotes the
residue class `u * p ^ v + O(p ^ (v + r))`. -/
structure CRElt (p cap : ℕ) where
  v : ℤ
  u : ℕ
  r : ℕ
  r_pos : 0 < r
  r_le_cap : r ≤ cap
  u_lt : u < p ^ r
  u_unit : ¬ p ∣ u

/-- `valuation()` of a nonzero capped-relative element: the stored valuation. -/
def CRElt.valuation {p cap : ℕ} (x : CRElt p cap) : ℤ := x.v

/-- `precision_relative()` of a nonzero capped-relative element. -/
def CRElt.precision_relative {p cap : ℕ} (x : CRElt p cap) : ℕ := x.r

/-- `precision_absolute()` of a nonzero capped-relative element:
valuation plus relative precision. -/
def CRElt.precision_absolute {p cap : ℕ} (x : CRElt p cap) : ℤ := x.v + x.r

/-- Modelled from the spec (Mul, CappedRelative/FloatingPoint): the result
valuation is the sum of the valuations and the result relative precision is
the minimum of the operand relative precisions; the unit part is the product
of the unit parts to that precision. -/
def CRElt.mul {p cap : ℕ} [hp : Fact p.Prime] (x y : CRElt p cap) : CRElt p cap where
  v := x.v + y.v
  u := x.u * y.u % p ^ min x.r y.r
  r := min x.r y.r
  r_pos := lt_min x.r_pos y.r_pos
  r_le_cap := le_trans (min_le_left _ _) x.r_le_cap
  u_lt := Nat.mod_lt _ (pow_pos hp.out.pos _)
  u_unit := by
    intro hdvd
    rw [Nat.dvd_mod_iff (dvd_pow_self p (lt_min x.r_pos y.r_pos).ne')] at hdvd
    rcases (Nat.Prime.dvd_mul hp.out).mp hdvd with h | h
    · exact x.u_unit h
    · exact y.u_unit h

/-- Modelled from the spec (Div): the result valuation is the difference of
the valuations and the result relative precision is the minimum of the
operand relative precisions; the unit part is the quotient of the unit
parts to that precision, via the modular inverse of the divisor's unit. -/
def CRElt.div {p cap : ℕ} [hp : Fact p.Prime] (x y : CRElt p cap) : CRElt p cap where
  v := x.v - y.v
  u := x.u * modInv y.u (p ^ min x.r y.r) % p ^ min x.r y.r
  r := min x.r y.r
  r_pos := lt_min x.r_pos y.r_pos
  r_le_cap := le_trans (min_le_left _ _) x.r_le_cap
  u_lt := Nat.mod_lt _ (pow_pos hp.out.pos _)
  u_unit := by
    intro hdvd
    have hm : 0 < min x.r y.r := lt_min x.r_pos y.r_pos
    have hq : (0:ℕ) < p ^ min x.r y.r := pow_pos hp.out.pos _
    rw [Nat.dvd_mod_iff (dvd_pow_self p hm.ne')] at hdvd
    rcases (Nat.Prime.dvd_mul hp.out).mp hdvd with h | h
    · exact x.u_unit h
    · -- p divides the modular inverse of y.u, contradicting y.u * inv ≡ 1
      have hco : Nat.Coprime y.u (p ^ min x.r y.r) :=
        Nat.Coprime.pow_right _ (Nat.coprime_comm.mp (hp.out.coprime_iff_not_dvd.mpr y.u_unit))
      haveI : NeZero (p ^ min x.r y.r) := ⟨hq.ne'⟩
      have h1 : ((y.u : ZMod (p ^ min x.r y.r)) * (y.u : ZMod (p ^ min x.r y.r))⁻¹) = 1 :=
        ZMod.coe_mul_inv_eq_one y.u hco
      have h2 : ((y.u * modInv y.u (p ^ min x.r y.r) : ℕ) : ZMod (p ^ min x.r y.r)) = 1 := by
        push_cast [modInv]
        rw [ZMod.natCast_rightInverse _]
        exact h1
      have h3 : y.u * modInv y.u (p ^ min x.r y.r) ≡ 1 [MOD p ^ min x.r y.r] := by
        have := (ZMod.natCast_eq_natCast_iff
          (y.u * modInv y.u (p ^ min x.r y.r)) 1 (p ^ min x.r y.r)).mp (by
            simpa using h2)
        simpa using this
      have h4 : y.u * modInv y.u (p ^ min x.r y.r) ≡ 1 [MOD p] :=
        Nat.ModEq.of_dvd (dvd_pow_self p hm.ne') h3
      have h5 : p ∣ y.u * modInv y.u (p ^ min x.r y.r) := Dvd.dvd.mul_left h y.u
      have h6 : (0:ℕ) ≡ 1 [MOD p] := ((Nat.modEq_zero_iff_dvd).mpr h5).symm.trans h4
      have h7 : p ∣ 1 := by simpa using (Nat.modEq_iff_dvd' (by norm_num)).mp h6
      exact absurd (Nat.dvd_one.mp h7) hp.out.one_lt.ne'

/-- A possibly-inexact-zero approximation element, as produced by addition
(which can cancel): valuation `v`, unit part `u` and relative precision `r`;
the inexact zero to absolute precision `a` is stored as `v = a`, `u = 0`,
`r = 0` (modelled from the spec's Element data model). -/
structure CRApprox (p : ℕ) where
  v : ℤ
  u : ℕ
  r : ℕ

/-- `precision_absolute()` of an approximation element. -/
def CRApprox.absprec {p : ℕ} (x : CRApprox p) : ℤ := x.v + x.r

/-- Unit-part decomposition of a raw value `m` known modulo `p ^ N`: the
inexact zero at precision `N` when `m` vanishes to that precision, otherwise
the triple (valuation, unit part, relative precision).  This is the
normalization the element classes (outside this repository) perform after
each arithmetic operation; modelled from the spec. -/
def normalize (p N m : ℕ) : ℕ × ℕ × ℕ :=
  if m % p ^ N = 0 then (N, 0, 0)
  else (padicValNat p m, m / p ^ padicValNat p m % p ^ (N - padicValNat p m),
    N - padicValNat p m)

/-- Build an approximation element from a shift `s` and a raw value `m`
known modulo `p ^ N`. -/
def CRApprox.ofRaw (p : ℕ) (s : ℤ) (N m : ℕ) : CRApprox p :=
  ⟨s + (normalize p N m).1, (normalize p N m).2.1, (normalize p N m).2.2⟩

/-- Modelled from the spec (Add): the operands are aligned at the smaller
valuation, added to the minimum of the absolute precisions, and the result
is renormalized (the result valuation can exceed the minimum when units
cancel, but the absolute precision is the minimum of the operands'). -/
def CRElt.add {p cap : ℕ} (x y : CRElt p cap) : CRApprox p :=
  CRApprox.ofRaw p (min x.v y.v)
    ((min (x.v + x.r) (y.v + y.r) - min x.v y.v).toNat)
    (x.u * p ^ (x.v - min x.v y.v).toNat + y.u * p ^ (y.v - min x.v y.v).toNat)

/-- Forget the invariants of a normalized nonzero element. -/
def CRElt.toApprox {p cap : ℕ} (x : CRElt p cap) : CRApprox p := ⟨x.v, x.u, x.r⟩

/-- Modelled from the spec (ElementArithmetic): two elements are equal to
absolute precision `m` when their values agree modulo `p ^ m`; the values
are compared after shifting by the smaller valuation. -/
def CRApprox.eqAbs {p : ℕ} (x y : CRApprox p) (m : ℤ) : Bool :=
  x.u * p ^ (x.v - min x.v y.v).toNat % p ^ (m - min x.v y.v).toNat ==
    y.u * p ^ (y.v - min x.v y.v).toNat % p ^ (m - min x.v y.v).toNat

/-- Modelled from the spec (ElementArithmetic): the equality operator `==`
compares the two elements up to the minimum of their absolute precisions. -/
def CRApprox.eqApprox {p : ℕ} (x y : CRApprox p) : Bool :=
  CRApprox.eqAbs x y (min x.absprec y.absprec)

/-- Valuation of the residue class of `x` modulo `p ^ N` (with `x` the
canonical representative, `x < p ^ N`): the absolute precision `N` for the
inexact zero, otherwise the p-adic valuation of the value.  Modelled from
the spec's Element data model (an element of absolute precision `N` with
valuation at least `N` is the representation of zero to precision `N`). -/
def cval (p N x : ℕ) : ℕ := if x = 0 then N else padicValNat p x

/-- Modelled from the spec: a capped-absolute element, a value `x` known
modulo `p ^ N` with absolute precision `N` at most the cap. -/
structure CAElt (p cap : ℕ) where
  x : ℕ
  N : ℕ
  x_lt : x < p ^ N
  N_le_cap : N ≤ cap

/-- `valuation()` of a capped-absolute element. -/
def CAElt.valuation {p cap : ℕ} (a : CAElt p cap) : ℕ := cval p a.N a.x

/-- `precision_relative()` of a capped-absolute element: absolute precision
minus valuation. -/
def CAElt.precision_relative {p cap : ℕ} (a : CAElt p cap) : ℕ := a.N - a.valuation

/-- Modelled from the spec (Mul, CappedAbsolute): the result absolute
precision is the minimum of the cap and of each operand's valuation plus the
other's absolute precision (absolute-precision capping interacting with
valuation growth); the value is the product to that precision. -/
def CAElt.mul {p cap : ℕ} [hp : Fact p.Prime] (a b : CAElt p cap) : CAElt p cap where
  x := a.x * b.x % p ^ min (min (a.valuation + b.N) (b.valuation + a.N)) cap
  N := min (min (a.valuation + b.N) (b.valuation + a.N)) cap
  x_lt := Nat.mod_lt _ (pow_pos hp.out.pos _)
  N_le_cap := min_le_right _ _

/-- Modelled from the spec (Add, CappedAbsolute): the result absolute
precision is the minimum of the operands' absolute precisions; the value is
the sum to that precision. -/
def CAElt.add {p cap : ℕ} [hp : Fact p.Prime] (a b : CAElt p cap) : CAElt p cap where
  x := (a.x + b.x) % p ^ min a.N b.N
  N := min a.N b.N
  x_lt := Nat.mod_lt _ (pow_pos hp.out.pos _)
  N_le_cap := le_trans (min_le_left _ _) a.N_le_cap

/-- Modelled from the spec: a fixed-modulus element, a value known modulo
`p ^ cap`; the absolute precision is always exactly the cap. -/
structure FMElt (p cap : ℕ) where
  x : ℕ
  x_lt : x < p ^ cap

/-- `valuation()` of a fixed-modulus element. -/
def FMElt.valuation {p cap : ℕ} (a : FMElt p cap) : ℕ := cval p cap a.x

/-- `precision_absolute()` of a fixed-modulus element: always the cap. -/
def FMElt.precision_absolute {p cap : ℕ} (_ : FMElt p cap) : ℕ := cap

/-- `precision_relative()` of a fixed-modulus element. -/
def FMElt.precision_relative {p cap : ℕ} (a : FMElt p cap) : ℕ := cap - a.valuation

/-- Modelled from the spec (Mul, FixedModulus): the value is the product
modulo `p ^ cap`; precision loss is real but untracked. -/
def FMElt.mul {p cap : ℕ} [hp : Fact p.Prime] (a b : FMElt p cap) : FMElt p cap where
  x := a.x * b.x % p ^ cap
  x_lt := Nat.mod_lt _ (pow_pos hp.out.pos _)

/-- Modelled from the spec (Add, FixedModulus): the value is the sum modulo
`p ^ cap`. -/
def FMElt.add {p cap : ℕ} [hp : Fact p.Prime] (a b : FMElt p cap) : FMElt p cap where
  x := (a.x + b.x) % p ^ cap
  x_lt := Nat.mod_lt _ (pow_pos hp.out.pos _)

/-- Value of the polynomial `f(y) = y ^ q - y` (with `q` the residue field
order, which is `p` over a base ring) whose roots the Teichmuller lift
computes; nonnegative over the naturals since `y ^ p ≥ y`. -/
def newton_f (p y : ℕ) : ℕ := y ^ p - y

/-- Modelled from the spec (TeichmullerLift): one Newton step
`y ← y - (y^q - y) / (q·y^(q-1) - 1)` carried out modulo `p ^ N`; the
derivative value is congruent to `-1` modulo `p`, hence invertible. -/
def newton_step (p N y : ℕ) : ℕ :=
  (y + (p ^ N - newton_f p y % p ^ N * modInv ((p * y ^ (p - 1) + (p ^ N - 1)) % p ^ N)
    (p ^ N) % p ^ N)) % p ^ N

/-- Modelled from the spec (TeichmullerLift): iterate the Newton step until
the requested absolute precision is reached (`f(y) ≡ 0 mod p^N`); the fuel
bounds the iteration count, which the quadratic convergence keeps at
`O(log N)`. -/
def teich_loop (p N : ℕ) : ℕ → ℕ → ℕ
  | 0, y => y
  | fuel + 1, y => if newton_f p y % p ^ N = 0 then y else teich_loop p N fuel (newton_step p N y)

/-- Modelled from the spec (TeichmullerLift): the Teichmuller lift of the
residue of `x`, computed to absolute precision `N`, starting from the lift
`x mod p^N` of `x`'s residue. -/
def teichmullerNat (p N x : ℕ) : ℕ := teich_loop p N N (x % p ^ N)

/-- `pAdicGeneric.teichmuller` (padic_generic.py lines 438-491): resolve the
requested precision through `teichmuller_prec` (the source's
`min(Integer(prec), self.precision_cap())`), then compute the lift at that
precision. -/
def teichmuller (R : pAdicRing) (x : ℕ) (prec : Option ℕ) : ℕ :=
  teichmullerNat R.prime (teichmuller_prec R prec) x

/-- Modelled from the spec (TeichmullerLift and the error taxonomy): the
Teichmuller operation on a general approximation element fails with a
domain error exactly when the element has negative valuation or zero
absolute precision (no well-defined residue to lift); the ring itself is
returned unchanged.  The successful branch lifts the integer value of the
element at the resolved precision. -/
def teichmuller_checked (R : pAdicRing) (x : CRApprox R.prime) (prec : Option ℕ) :
    pAdicRing × Option ℕ :=
  if x.v < 0 ∨ x.absprec = 0 then (R, none)
  else (R, some (teichmullerNat R.prime (teichmuller_prec R prec)
    (x.u * R.prime ^ x.v.toNat)))

/-- Modelled from the spec (LogExpEngine): the truncated p-adic logarithm
series `log(1+z) = Σ_{k≥1} (-1)^(k+1) z^k / k` evaluated modulo `p ^ r` on
a value `z` divisible by `p`; each term is computed by exact division of
`z ^ k` by the power of `p` in `k` followed by multiplication with the
modular inverse of the unit part of `k`.  The truncation at `2r` terms
covers all terms of valuation below `r` once `z` has positive valuation. -/
def log_series_raw (p r z : ℕ) : ZMod (p ^ r) :=
  (Finset.range (2 * r)).sum fun i =>
    (-1 : ZMod (p ^ r)) ^ i * ((z ^ (i + 1) / p ^ padicValNat p (i + 1) : ℕ) : ZMod (p ^ r)) *
      (((i + 1) / p ^ padicValNat p (i + 1) : ℕ) : ZMod (p ^ r))⁻¹

/-- Modelled from the spec (LogExpEngine): logarithm of a unit `u` at
working precision `r` with the zero branch for `p`: the Teichmuller part of
`u` is split off (its log is zero) and the series is applied to the
remaining 1-unit. -/
def log_unit (p r u : ℕ) : ℕ :=
  (log_series_raw p r
    ((u : ZMod (p ^ r)) * ((teichmullerNat p r u : ℕ) : ZMod (p ^ r))⁻¹ - 1).val).val

/-- Modelled from the spec (LogExpEngine): `log` of a nonzero
capped-relative element with `p_branch=0`: the valuation contributes
nothing, and the unit part's logarithm is computed at working precision the
element's relative precision, which becomes the result's absolute
precision. -/
def CRElt.log {p cap : ℕ} (x : CRElt p cap) : CRApprox p :=
  CRApprox.ofRaw p 0 x.r (log_unit p x.r x.u)

/-- Unit part of a nonzero capped-absolute value. -/
def CAElt.unit_part {p cap : ℕ} (a : CAElt p cap) : ℕ := a.x / p ^ padicValNat p a.x

/-- Modelled from the spec (LogExpEngine): `log` of a nonzero
capped-absolute element with `p_branch=0`, computed on the unit part at
working precision the element's relative precision. -/
def CAElt.log {p cap : ℕ} (a : CAElt p cap) : CRApprox p :=
  CRApprox.ofRaw p 0 a.precision_relative (log_unit p a.precision_relative a.unit_part)

/-! ### Theorems -/

/-- Claim C1: equality of two p-adic parents compares the prime first, then
the precision cap, then the print configuration, short-circuiting at the
first difference; the variant tag is never compared, so two rings with the
same prime, cap and print configuration are equal whatever their variants,
and two rings identical except in print configuration are not equal. -/
theorem claim_C1_ring_equality (R S : pAdicRing) :
    ringEq R S = true ↔
      R.prime = S.prime ∧ R.precision_cap = S.precision_cap ∧ R.print_cfg = S.print_cfg := by
  have hb : ∀ a b : Ordering, (a == b) = true ↔ a = b := by
    intro a b
    cases a <;> cases b <;> decide
  unfold ringEq richcmp
  split_ifs with h1 h2
  · rw [hb, compare_eq_iff_eq]
    exact ⟨fun h => absurd h h1, fun h => absurd h.1 h1⟩
  · rw [hb, compare_eq_iff_eq]
    exact ⟨fun h => absurd h h2, fun h => absurd h.2.1 h2⟩
  · rw [hb, compare_eq_iff_eq]
    exact ⟨fun h => ⟨not_not.mp h1, not_not.mp h2, h⟩, fun h => h.2.2⟩

/-- Claim C9: `fraction_field` on a field with no print-mode argument is the
identity, `integer_ring` on a non-field likewise; supplying differing print
options produces a new parent with the same prime and precision cap but the
new print configuration. -/
theorem claim_C9_fraction_integer_ring :
    (∀ R : pAdicRing, R.is_field = true → fraction_field R none = R)
  ∧ (∀ R : pAdicRing, R.is_field = false → integer_ring R none = R)
  ∧ (∀ (R : pAdicRing) (pm : ℕ), pm ≠ R.print_cfg →
      (fraction_field R (some pm)).prime = R.prime
    ∧ (fraction_field R (some pm)).precision_cap = R.precision_cap
    ∧ (fraction_field R (some pm)).is_field = true
    ∧ (fraction_field R (some pm)).print_cfg = pm
    ∧ fraction_field R (some pm) ≠ R
    ∧ (integer_ring R (some pm)).prime = R.prime
    ∧ (integer_ring R (some pm)).precision_cap = R.precision_cap
    ∧ (integer_ring R (some pm)).is_field = false
    ∧ (integer_ring R (some pm)).print_cfg = pm
    ∧ integer_ring R (some pm) ≠ R) := by
  refine ⟨?_, ?_, ?_⟩
  · intro R h
    simp [fraction_field, h]
  · intro R h
    simp [integer_ring, h]
  · intro R pm hne
    have hf : fraction_field R (some pm) = change_parent R true (some pm) := by
      simp [fraction_field]
    have hi : integer_ring R (some pm) = change_parent R false (some pm) := by
      simp [integer_ring]
    refine ⟨by rw [hf]; rfl, by rw [hf]; rfl, by rw [hf]; rfl, by rw [hf]; rfl, ?_,
      by rw [hi]; rfl, by rw [hi]; rfl, by rw [hi]; rfl, by rw [hi]; rfl, ?_⟩
    · intro h
      exact hne (by rw [← h, hf]; rfl)
    · intro h
      exact hne (by rw [← h, hi]; rfl)

/-- Claim C9, witness: instantiation at a concrete field and a concrete
ring with a differing print option. -/
theorem claim_C9_witness :
    fraction_field ⟨3, 10, Variant.cappedRel, 0, true⟩ none = ⟨3, 10, Variant.cappedRel, 0, true⟩
  ∧ integer_ring ⟨3, 10, Variant.cappedRel, 0, false⟩ none = ⟨3, 10, Variant.cappedRel, 0, false⟩
  ∧ (fraction_field ⟨3, 10, Variant.cappedAbs, 0, false⟩ (some 1)).print_cfg = 1
  ∧ fraction_field ⟨3, 10, Variant.cappedAbs, 0, false⟩ (some 1) ≠
      ⟨3, 10, Variant.cappedAbs, 0, false⟩ :=
  ⟨claim_C9_fraction_integer_ring.1 _ rfl,
   claim_C9_fraction_integer_ring.2.1 _ rfl,
   (claim_C9_fraction_integer_ring.2.2 ⟨3, 10, Variant.cappedAbs, 0, false⟩ 1
     (by decide)).2.2.2.1,
   (claim_C9_fraction_integer_ring.2.2 ⟨3, 10, Variant.cappedAbs, 0, false⟩ 1
     (by decide)).2.2.2.2.1⟩

/-- Claim C10: `teichmuller` silently truncates an explicitly requested
precision to the ring's precision cap — the lift is computed at precision
`min prec cap`, never beyond the cap, and an omitted precision means
exactly the cap. -/
theorem claim_C10_teichmuller_prec :
    (∀ (R : pAdicRing) (q : ℕ), teichmuller_prec R (some q) = min q R.precision_cap)
  ∧ (∀ (R : pAdicRing) (pr : Option ℕ), teichmuller_prec R pr ≤ R.precision_cap)
  ∧ (∀ R : pAdicRing, teichmuller_prec R none = R.precision_cap)
  ∧ (∀ (R : pAdicRing) (x q : ℕ),
      teichmuller R x (some q) = teichmuller R x (some (min q R.precision_cap))) := by
  refine ⟨fun R q => rfl, ?_, fun R => rfl, ?_⟩
  · rintro R (_ | q)
    · exact le_refl _
    · exact min_le_right _ _
  · intro R x q
    simp [teichmuller, teichmuller_prec, min_assoc]

/-- Claim C7: the Teichmuller operation fails with a domain error exactly
when the input has negative valuation or zero absolute precision, and the
ring is left unchanged by the call. -/
theorem claim_C7_teichmuller_domain (R : pAdicRing) (x : CRApprox R.prime) (prec : Option ℕ) :
    ((teichmuller_checked R x prec).2 = none ↔ x.v < 0 ∨ x.absprec = 0)
  ∧ (teichmuller_checked R x prec).1 = R := by
  unfold teichmuller_checked
  split_ifs with h <;> simp [h]

/-- Claim C5: equality of elements is not transitive: over p = 3 with
precision cap 20, the exact value 3 (valuation 1, unit 1, relative
precision 20) equals the inexact zero known to absolute precision 1, which
in turn equals the exact value 6 (valuation 1, unit 2), yet 3 and 6 are not
equal. -/
theorem claim_C5_eq_not_transitive :
    CRApprox.eqApprox (⟨1, 1, 20⟩ : CRApprox 3) ⟨1, 0, 0⟩ = true
  ∧ CRApprox.eqApprox (⟨1, 0, 0⟩ : CRApprox 3) ⟨1, 2, 20⟩ = true
  ∧ CRApprox.eqApprox (⟨1, 1, 20⟩ : CRApprox 3) ⟨1, 2, 20⟩ = false := by
  refine ⟨?_, ?_, ?_⟩ <;> decide

/-- Auxiliary: a nonzero value below `p ^ N` has p-adic valuation below `N`. -/
theorem val_lt_of_lt_pow {p N x : ℕ} (hp : 1 < p) (hx : x ≠ 0) (h : x < p ^ N) :
    padicValNat p x < N := by
  by_contra hcon
  push_neg at hcon
  have h1 : p ^ N ∣ x := dvd_trans (pow_dvd_pow p hcon) pow_padicValNat_dvd
  have h2 : p ^ N ≤ x := Nat.le_of_dvd (Nat.pos_of_ne_zero hx) h1
  omega

/-- Auxiliary: reduction modulo `p ^ N` preserves nonzeroness and the
valuation of a value whose valuation is below `N`. -/
theorem mod_pow_val {p N a : ℕ} [hp : Fact p.Prime] (ha : a ≠ 0)
    (h : padicValNat p a < N) :
    a % p ^ N ≠ 0 ∧ padicValNat p (a % p ^ N) = padicValNat p a := by
  have hnd : ¬ p ^ N ∣ a := by
    intro hd
    have := (padicValNat_dvd_iff_le ha).mp hd
    omega
  have hm0 : a % p ^ N ≠ 0 := fun h0 => hnd (Nat.dvd_of_mod_eq_zero h0)
  refine ⟨hm0, le_antisymm ?_ ?_⟩
  · by_contra hc
    push_neg at hc
    have hd1 : p ^ (padicValNat p a + 1) ∣ a % p ^ N :=
      dvd_trans (pow_dvd_pow p hc) pow_padicValNat_dvd
    have hd2 : p ^ (padicValNat p a + 1) ∣ a :=
      (Nat.dvd_mod_iff (pow_dvd_pow p (by omega))).mp hd1
    have := (padicValNat_dvd_iff_le ha).mp hd2
    omega
  · refine (padicValNat_dvd_iff_le hm0).mp ?_
    exact (Nat.dvd_mod_iff (pow_dvd_pow p h.le)).mpr pow_padicValNat_dvd

/-- Auxiliary ultrametric law: adding a value of strictly larger valuation
does not change the valuation. -/
theorem val_add_of_lt {p a b : ℕ} [hp : Fact p.Prime] (ha : a ≠ 0) (hb : b ≠ 0)
    (h : padicValNat p a < padicValNat p b) :
    padicValNat p (a + b) = padicValNat p a := by
  have hab : a + b ≠ 0 := by omega
  refine le_antisymm ?_ ?_
  · by_contra hc
    push_neg at hc
    have h1 : p ^ (padicValNat p a + 1) ∣ a + b :=
      dvd_trans (pow_dvd_pow p hc) pow_padicValNat_dvd
    have h2 : p ^ (padicValNat p a + 1) ∣ b :=
      dvd_trans (pow_dvd_pow p (by omega)) pow_padicValNat_dvd
    have h3 : p ^ (padicValNat p a + 1) ∣ a := (Nat.dvd_add_iff_left h2).mpr h1
    have := (padicValNat_dvd_iff_le ha).mp h3
    omega
  · refine (padicValNat_dvd_iff_le hab).mp ?_
    exact dvd_add pow_padicValNat_dvd (dvd_trans (pow_dvd_pow p h.le) pow_padicValNat_dvd)

/-- Claim C2: for all elements of the same ring whose product is nonzero,
the product's valuation is the sum of the valuations; under CappedRelative
and FloatingPoint the product's relative precision is exactly the minimum
of the operands' relative precisions, while under CappedAbsolute and
FixedModulus it is at most that minimum. -/
theorem claim_C2_mul_precision (p cap : ℕ) [hp : Fact p.Prime] :
    (∀ x y : CRElt p cap,
      (x.mul y).valuation = x.valuation + y.valuation
    ∧ (x.mul y).precision_relative = min x.precision_relative y.precision_relative)
  ∧ (∀ a b : CAElt p cap, (a.mul b).x ≠ 0 →
      (a.mul b).valuation = a.valuation + b.valuation)
  ∧ (∀ a b : CAElt p cap,
      (a.mul b).precision_relative ≤ min a.precision_relative b.precision_relative)
  ∧ (∀ a b : FMElt p cap, (a.mul b).x ≠ 0 →
      (a.mul b).valuation = a.valuation + b.valuation)
  ∧ (∀ a b : FMElt p cap,
      (a.mul b).precision_relative ≤ min a.precision_relative b.precision_relative) := by
  have hp1 : 1 < p := hp.out.one_lt
  have camain : ∀ a b : CAElt p cap, (a.mul b).x ≠ 0 →
      (a.mul b).valuation = a.valuation + b.valuation := by
    intro a b hz
    have hx : (a.mul b).x = a.x * b.x % p ^ (a.mul b).N := rfl
    have hxa : a.x ≠ 0 := by
      intro h0
      exact hz (by rw [hx, h0, Nat.zero_mul, Nat.zero_mod])
    have hxb : b.x ≠ 0 := by
      intro h0
      exact hz (by rw [hx, h0, Nat.mul_zero, Nat.zero_mod])
    have hprod : a.x * b.x ≠ 0 := Nat.mul_ne_zero hxa hxb
    have hvmul : padicValNat p (a.x * b.x) = padicValNat p a.x + padicValNat p b.x :=
      padicValNat.mul hxa hxb
    have hvlt : padicValNat p (a.x * b.x) < (a.mul b).N := by
      by_contra hc
      push_neg at hc
      have : p ^ (a.mul b).N ∣ a.x * b.x := (padicValNat_dvd_iff_le hprod).mpr hc
      exact hz (hx ▸ Nat.mod_eq_zero_of_dvd this)
    obtain ⟨hz2, hval⟩ := mod_pow_val hprod hvlt
    have h1 : (a.mul b).valuation = padicValNat p (a.mul b).x := by
      unfold CAElt.valuation cval
      rw [if_neg hz]
    have h2 : a.valuation = padicValNat p a.x := by
      unfold CAElt.valuation cval
      rw [if_neg hxa]
    have h3 : b.valuation = padicValNat p b.x := by
      unfold CAElt.valuation cval
      rw [if_neg hxb]
    rw [h1, h2, h3, hx, hval, hvmul]
  have fmmain : ∀ a b : FMElt p cap, (a.mul b).x ≠ 0 →
      (a.mul b).valuation = a.valuation + b.valuation := by
    intro a b hz
    have hx : (a.mul b).x = a.x * b.x % p ^ cap := rfl
    have hxa : a.x ≠ 0 := by
      intro h0
      exact hz (by rw [hx, h0, Nat.zero_mul, Nat.zero_mod])
    have hxb : b.x ≠ 0 := by
      intro h0
      exact hz (by rw [hx, h0, Nat.mul_zero, Nat.zero_mod])
    have hprod : a.x * b.x ≠ 0 := Nat.mul_ne_zero hxa hxb
    have hvmul : padicValNat p (a.x * b.x) = padicValNat p a.x + padicValNat p b.x :=
      padicValNat.mul hxa hxb
    have hvlt : padicValNat p (a.x * b.x) < cap := by
      by_contra hc
      push_neg at hc
      have : p ^ cap ∣ a.x * b.x := (padicValNat_dvd_iff_le hprod).mpr hc
      exact hz (hx ▸ Nat.mod_eq_zero_of_dvd this)
    obtain ⟨hz2, hval⟩ := mod_pow_val hprod hvlt
    have h1 : (a.mul b).valuation = padicValNat p (a.mul b).x := by
      unfold FMElt.valuation cval
      rw [if_neg hz]
    have h2 : a.valuation = padicValNat p a.x := by
      unfold FMElt.valuation cval
      rw [if_neg hxa]
    have h3 : b.valuation = padicValNat p b.x := by
      unfold FMElt.valuation cval
      rw [if_neg hxb]
    rw [h1, h2, h3, hx, hval, hvmul]
  refine ⟨fun x y => ⟨rfl, rfl⟩, camain, ?_, fmmain, ?_⟩
  · -- capped absolute, relative precision bound
    intro a b
    have hN : (a.mul b).N = min (min (a.valuation + b.N) (b.valuation + a.N)) cap := rfl
    rcases Nat.eq_zero_or_pos ((a.mul b).x) with hz | hz
    · have hvz : (a.mul b).valuation = (a.mul b).N := by
        unfold CAElt.valuation cval
        rw [if_pos hz]
      unfold CAElt.precision_relative
      omega
    · have hz2 : (a.mul b).x ≠ 0 := hz.ne'
      have hvz := camain a b hz2
      have hxa : a.x ≠ 0 := by
        intro h0
        exact hz2 (by rw [show (a.mul b).x = a.x * b.x % p ^ (a.mul b).N from rfl,
          h0, Nat.zero_mul, Nat.zero_mod])
      have hxb : b.x ≠ 0 := by
        intro h0
        exact hz2 (by rw [show (a.mul b).x = a.x * b.x % p ^ (a.mul b).N from rfl,
          h0, Nat.mul_zero, Nat.zero_mod])
      have hva' : a.valuation ≤ a.N := by
        unfold CAElt.valuation cval
        rw [if_neg hxa]
        exact (val_lt_of_lt_pow hp1 hxa a.x_lt).le
      have hvb' : b.valuation ≤ b.N := by
        unfold CAElt.valuation cval
        rw [if_neg hxb]
        exact (val_lt_of_lt_pow hp1 hxb b.x_lt).le
      unfold CAElt.precision_relative
      omega
  · -- fixed modulus, relative precision bound
    intro a b
    rcases Nat.eq_zero_or_pos ((a.mul b).x) with hz | hz
    · have hvz : (a.mul b).valuation = cap := by
        unfold FMElt.valuation cval
        rw [if_pos hz]
      unfold FMElt.precision_relative
      omega
    · have hz2 : (a.mul b).x ≠ 0 := hz.ne'
      have hvz := fmmain a b hz2
      unfold FMElt.precision_relative
      omega

/-- Claim C2, witness: instantiation over p = 3, cap = 2, on concrete
capped-relative and capped-absolute elements, with the nonzeroness of the
capped-absolute product discharged concretely. -/
theorem claim_C2_mul_precision_witness :
    ((⟨0, 1, 2, by norm_num, by norm_num, by norm_num, by norm_num⟩ : CRElt 3 2).mul
        ⟨1, 1, 2, by norm_num, by norm_num, by norm_num, by norm_num⟩).valuation = 0 + 1
  ∧ ((⟨1, 1, by norm_num, by norm_num⟩ : CAElt 3 2).mul
        ⟨1, 1, by norm_num, by norm_num⟩).valuation =
      (⟨1, 1, by norm_num, by norm_num⟩ : CAElt 3 2).valuation +
      (⟨1, 1, by norm_num, by norm_num⟩ : CAElt 3 2).valuation := by
  constructor
  · exact ((@claim_C2_mul_precision 3 2 ⟨by norm_num⟩).1 _ _).1
  · refine (@claim_C2_mul_precision 3 2 ⟨by norm_num⟩).2.1 _ _ ?_
    simp [CAElt.mul, CAElt.valuation, cval]

/-- Auxiliary: valuation of a sum of residue classes when the left operand
is the zero class. -/
theorem cval_add_zero_left {p : ℕ} [hp : Fact p.Prime] (N1 N2 x2 : ℕ)
    (h2 : x2 < p ^ N2) (hx2 : x2 ≠ 0) :
    cval p (min N1 N2) ((0 + x2) % p ^ min N1 N2) = min (cval p N1 0) (cval p N2 x2) := by
  have hp1 : 1 < p := hp.out.one_lt
  have hv2 : padicValNat p x2 < N2 := val_lt_of_lt_pow hp1 hx2 h2
  rw [Nat.zero_add]
  rw [show cval p N1 0 = N1 from if_pos rfl, show cval p N2 x2 = padicValNat p x2 from if_neg hx2]
  rcases lt_or_le (padicValNat p x2) (min N1 N2) with hlt | hge
  · obtain ⟨hz, hval⟩ := mod_pow_val hx2 hlt
    rw [show cval p (min N1 N2) (x2 % p ^ min N1 N2) = padicValNat p (x2 % p ^ min N1 N2)
      from if_neg hz, hval]
    omega
  · have hdvd : p ^ min N1 N2 ∣ x2 :=
      dvd_trans (pow_dvd_pow p hge) pow_padicValNat_dvd
    rw [Nat.mod_eq_zero_of_dvd hdvd, show cval p (min N1 N2) 0 = min N1 N2 from if_pos rfl]
    omega

/-- Auxiliary: valuation of a sum of nonzero residue classes of distinct
valuations, with the left valuation smaller. -/
theorem cval_add_core {p : ℕ} [hp : Fact p.Prime] (N1 N2 x1 x2 : ℕ)
    (h1 : x1 < p ^ N1) (h2 : x2 < p ^ N2) (hx1 : x1 ≠ 0) (hx2 : x2 ≠ 0)
    (hlt : padicValNat p x1 < padicValNat p x2) :
    cval p (min N1 N2) ((x1 + x2) % p ^ min N1 N2) = padicValNat p x1 := by
  have hp1 : 1 < p := hp.out.one_lt
  have hv1 : padicValNat p x1 < N1 := val_lt_of_lt_pow hp1 hx1 h1
  have hv2 : padicValNat p x2 < N2 := val_lt_of_lt_pow hp1 hx2 h2
  have hsum : x1 + x2 ≠ 0 := by omega
  have hvadd : padicValNat p (x1 + x2) = padicValNat p x1 := val_add_of_lt hx1 hx2 hlt
  have hvlt : padicValNat p (x1 + x2) < min N1 N2 := by
    rw [hvadd]
    omega
  obtain ⟨hz, hval⟩ := mod_pow_val hsum hvlt
  rw [show cval p (min N1 N2) ((x1 + x2) % p ^ min N1 N2) =
    padicValNat p ((x1 + x2) % p ^ min N1 N2) from if_neg hz, hval, hvadd]

/-- Auxiliary master lemma for addition: when two residue classes have
distinct valuations, the valuation of their sum (to the minimum of the
absolute precisions) is the minimum of the valuations. -/
theorem cval_add {p : ℕ} [hp : Fact p.Prime] (N1 N2 x1 x2 : ℕ)
    (h1 : x1 < p ^ N1) (h2 : x2 < p ^ N2)
    (hne : cval p N1 x1 ≠ cval p N2 x2) :
    cval p (min N1 N2) ((x1 + x2) % p ^ min N1 N2) = min (cval p N1 x1) (cval p N2 x2) := by
  by_cases hx1 : x1 = 0
  · by_cases hx2 : x2 = 0
    · subst hx1
      subst hx2
      rw [show cval p N1 0 = N1 from if_pos rfl, show cval p N2 0 = N2 from if_pos rfl,
        Nat.zero_add, Nat.zero_mod, show cval p (min N1 N2) 0 = min N1 N2 from if_pos rfl]
    · subst hx1
      exact cval_add_zero_left N1 N2 x2 h2 hx2
  · by_cases hx2 : x2 = 0
    · subst hx2
      have h := cval_add_zero_left N2 N1 x1 h1 hx1
      rw [Nat.zero_add] at h
      rw [Nat.add_zero, min_comm N1 N2, min_comm (cval p N1 x1) (cval p N2 0)]
      exact h
    · have hc1 : cval p N1 x1 = padicValNat p x1 := if_neg hx1
      have hc2 : cval p N2 x2 = padicValNat p x2 := if_neg hx2
      have hne2 : padicValNat p x1 ≠ padicValNat p x2 := by
        rw [hc1, hc2] at hne
        exact hne
      rcases lt_or_gt_of_ne hne2 with hlt | hgt
      · rw [cval_add_core N1 N2 x1 x2 h1 h2 hx1 hx2 hlt, hc1, hc2]
        omega
      · rw [Nat.add_comm x1 x2, min_comm N1 N2,
          cval_add_core N2 N1 x2 x1 h2 h1 hx2 hx1 hgt, hc1, hc2]
        omega

/-- Auxiliary: the valuation and relative precision components of
`normalize` sum to the working precision. -/
theorem normalize_fst_add_snd {p : ℕ} [hp : Fact p.Prime] (N m : ℕ) :
    (normalize p N m).1 + (normalize p N m).2.2 = N := by
  unfold normalize
  split_ifs with h
  · simp
  · have hm : m ≠ 0 := by
      intro h0
      exact h (by rw [h0, Nat.zero_mod])
    have hv : padicValNat p m < N := by
      by_contra hc
      push_neg at hc
      exact h (Nat.mod_eq_zero_of_dvd (dvd_trans (pow_dvd_pow p hc) pow_padicValNat_dvd))
    simp only
    omega

/-- Auxiliary: addition of capped-relative elements is commutative. -/
theorem crelt_add_comm {p cap : ℕ} (x y : CRElt p cap) : x.add y = y.add x := by
  unfold CRElt.add
  rw [min_comm x.v y.v, min_comm (x.v + (x.r : ℤ)) (y.v + (y.r : ℤ)),
    Nat.add_comm (x.u * p ^ (x.v - min y.v x.v).toNat) (y.u * p ^ (y.v - min y.v x.v).toNat)]

/-- Auxiliary: valuation of a capped-relative sum when the left valuation
is strictly smaller: no cancellation can occur, so the result valuation is
the left valuation. -/
theorem crelt_add_val_of_lt {p cap : ℕ} [hp : Fact p.Prime] (x y : CRElt p cap)
    (h : x.v < y.v) : (x.add y).v = x.v := by
  have hs : min x.v y.v = x.v := min_eq_left h.le
  have hN1 : 1 ≤ (min (x.v + (x.r : ℤ)) (y.v + (y.r : ℤ)) - min x.v y.v).toNat := by
    have hx1 : (1 : ℤ) ≤ x.r := by exact_mod_cast x.r_pos
    have hy1 : (1 : ℤ) ≤ y.r := by exact_mod_cast y.r_pos
    omega
  have hd : 1 ≤ (y.v - min x.v y.v).toNat := by omega
  have hx0 : (x.v - min x.v y.v).toNat = 0 := by omega
  set m := x.u * p ^ (x.v - min x.v y.v).toNat + y.u * p ^ (y.v - min x.v y.v).toNat with hm
  have hmnd : ¬ p ∣ m := by
    intro hdvd
    have hterm : p ∣ y.u * p ^ (y.v - min x.v y.v).toNat :=
      Dvd.dvd.mul_left (dvd_pow_self p (by omega)) y.u
    have : p ∣ x.u * p ^ (x.v - min x.v y.v).toNat :=
      (Nat.dvd_add_iff_left hterm).mpr hdvd
    rw [hx0, pow_zero, Nat.mul_one] at this
    exact x.u_unit this
  have hmod : m % p ^ (min (x.v + (x.r : ℤ)) (y.v + (y.r : ℤ)) - min x.v y.v).toNat ≠ 0 := by
    intro h0
    exact hmnd (dvd_trans (dvd_pow_self p (by omega)) (Nat.dvd_of_mod_eq_zero h0))
  show (CRApprox.ofRaw p _ _ _).v = x.v
  unfold CRApprox.ofRaw normalize
  rw [if_neg hmod]
  simp only
  rw [padicValNat.eq_zero_of_not_dvd hmnd]
  omega

/-- Claim C4: for elements of distinct valuations the valuation of the sum
is exactly the minimum of the valuations (for every variant), and for every
variant except FloatingPoint the absolute precision of the sum is the
minimum of the absolute precisions.  The capped-relative model here also
serves the floating-point variant, whose addition follows the same
valuation rule. -/
theorem claim_C4_add_precision (p cap : ℕ) [hp : Fact p.Prime] :
    (∀ x y : CRElt p cap, x.v ≠ y.v → (x.add y).v = min x.v y.v)
  ∧ (∀ x y : CRElt p cap,
      (x.add y).absprec = min x.precision_absolute y.precision_absolute)
  ∧ (∀ a b : CAElt p cap, a.valuation ≠ b.valuation →
      (a.add b).valuation = min a.valuation b.valuation)
  ∧ (∀ a b : CAElt p cap, (a.add b).N = min a.N b.N)
  ∧ (∀ a b : FMElt p cap, a.valuation ≠ b.valuation →
      (a.add b).valuation = min a.valuation b.valuation)
  ∧ (∀ a b : FMElt p cap, (a.add b).precision_absolute = min a.precision_absolute b.precision_absolute) := by
  refine ⟨?_, ?_, ?_, fun a b => rfl, ?_, fun a b => (Nat.min_self cap).symm⟩
  · intro x y hne
    rcases lt_or_gt_of_ne hne with hlt | hgt
    · rw [crelt_add_val_of_lt x y hlt, min_eq_left hlt.le]
    · rw [crelt_add_comm, crelt_add_val_of_lt y x hgt, min_eq_right hgt.le]
  · intro x y
    have hsum := @normalize_fst_add_snd p hp
      ((min (x.v + (x.r : ℤ)) (y.v + (y.r : ℤ)) - min x.v y.v).toNat)
      (x.u * p ^ (x.v - min x.v y.v).toNat + y.u * p ^ (y.v - min x.v y.v).toNat)
    have hx1 : (1 : ℤ) ≤ x.r := by exact_mod_cast x.r_pos
    have hy1 : (1 : ℤ) ≤ y.r := by exact_mod_cast y.r_pos
    show (CRApprox.ofRaw p _ _ _).v + ((CRApprox.ofRaw p _ _ _).r : ℤ) = _
    unfold CRApprox.ofRaw
    simp only
    unfold CRElt.precision_absolute
    omega
  · intro a b hne
    have hx : (a.add b).x = (a.x + b.x) % p ^ min a.N b.N := rfl
    have hval : (a.add b).valuation = cval p (min a.N b.N) ((a.x + b.x) % p ^ min a.N b.N) := by
      unfold CAElt.valuation
      rw [hx, show (a.add b).N = min a.N b.N from rfl]
    rw [hval]
    exact cval_add a.N b.N a.x b.x a.x_lt b.x_lt hne
  · intro a b hne
    have hx : (a.add b).x = (a.x + b.x) % p ^ cap := rfl
    have hval : (a.add b).valuation = cval p (min cap cap) ((a.x + b.x) % p ^ min cap cap) := by
      unfold FMElt.valuation
      rw [hx, min_self]
    rw [hval]
    exact cval_add cap cap a.x b.x a.x_lt b.x_lt hne

/-- Claim C4, witness: instantiation over p = 3, cap = 2, on concrete
elements of distinct valuations in each precision model. -/
theorem claim_C4_add_precision_witness :
    ((⟨0, 1, 2, by norm_num, by norm_num, by norm_num, by norm_num⟩ : CRElt 3 2).add
        ⟨1, 1, 2, by norm_num, by norm_num, by norm_num, by norm_num⟩).v = min 0 1
  ∧ ((⟨1, 2, by norm_num, by norm_num⟩ : CAElt 3 2).add
        ⟨3, 2, by norm_num, by norm_num⟩).valuation =
      min (⟨1, 2, by norm_num, by norm_num⟩ : CAElt 3 2).valuation
        (⟨3, 2, by norm_num, by norm_num⟩ : CAElt 3 2).valuation := by
  constructor
  · exact (@claim_C4_add_precision 3 2 ⟨by norm_num⟩).1 _ _ (by decide)
  · refine (@claim_C4_add_precision 3 2 ⟨by norm_num⟩).2.2.1 _ _ ?_
    show cval 3 2 1 ≠ cval 3 2 3
    rw [show cval 3 2 1 = padicValNat 3 1 from if_neg (by norm_num),
      show cval 3 2 3 = padicValNat 3 3 from if_neg (by norm_num),
      padicValNat.one, padicValNat_self]
    norm_num

/-- Auxiliary: correctness of the modular inverse. -/
theorem modInv_mul {a n : ℕ} (h : Nat.Coprime a n) (hn : n ≠ 0) :
    a * modInv a n ≡ 1 [MOD n] := by
  haveI : NeZero n := ⟨hn⟩
  have h1 : ((a : ZMod n) * (a : ZMod n)⁻¹) = 1 := ZMod.coe_mul_inv_eq_one a h
  have h2 : ((a * modInv a n : ℕ) : ZMod n) = 1 := by
    push_cast [modInv]
    rw [ZMod.natCast_rightInverse _]
    exact h1
  have h3 := (ZMod.natCast_eq_natCast_iff (a * modInv a n) 1 n).mp (by simpa using h2)
  simpa using h3

/-- Auxiliary: two approximation elements of equal valuation whose units
agree modulo the relative room below `M` are equal to absolute precision
`M`. -/
theorem eqAbs_of_modeq {p : ℕ} (a b : CRApprox p) (M : ℤ) (hv : a.v = b.v)
    (h : a.u ≡ b.u [MOD p ^ (M - b.v).toNat]) : CRApprox.eqAbs a b M = true := by
  unfold CRApprox.eqAbs
  rw [hv, min_self, sub_self, Int.toNat_zero, pow_zero, Nat.mul_one, Nat.mul_one]
  exact beq_iff_eq.mpr h

/-- Claim C3: whenever the division `z = x / y` is performed, the round
trip `z * y == x` holds to precision `min(x.precision_relative(),
y.precision_relative())`, and `z` has valuation `x.valuation() -
y.valuation()` and relative precision exactly that minimum. -/
theorem claim_C3_div_round_trip (p cap : ℕ) [hp : Fact p.Prime] (x y : CRElt p cap) :
    CRApprox.eqAbs ((x.div y).mul y).toApprox x.toApprox
      (x.v + (min x.r y.r : ℤ)) = true
  ∧ (x.div y).valuation = x.valuation - y.valuation
  ∧ (x.div y).precision_relative = min x.precision_relative y.precision_relative := by
  refine ⟨?_, rfl, rfl⟩
  have hq0 : p ^ min x.r y.r ≠ 0 := pow_ne_zero _ hp.out.pos.ne'
  have hco : Nat.Coprime y.u (p ^ min x.r y.r) :=
    Nat.Coprime.pow_right _ (Nat.coprime_comm.mp (hp.out.coprime_iff_not_dvd.mpr y.u_unit))
  have hinv : y.u * modInv y.u (p ^ min x.r y.r) ≡ 1 [MOD p ^ min x.r y.r] :=
    modInv_mul hco hq0
  refine eqAbs_of_modeq _ _ _ ?_ ?_
  · show x.v - y.v + y.v = x.v
    omega
  · have hexp : ((x.v + (min x.r y.r : ℤ)) - (CRElt.toApprox x).v).toNat = min x.r y.r := by
      show ((x.v + (min x.r y.r : ℤ)) - x.v).toNat = min x.r y.r
      omega
    rw [hexp]
    have hau : ((x.div y).mul y).toApprox.u =
        x.u * modInv y.u (p ^ min x.r y.r) % p ^ min x.r y.r * y.u %
          p ^ min (min x.r y.r) y.r := rfl
    have hm : min (min x.r y.r) y.r = min x.r y.r := by
      rw [min_assoc, min_self]
    rw [hau, hm]
    show _ ≡ x.u [MOD p ^ min x.r y.r]
    calc x.u * modInv y.u (p ^ min x.r y.r) % p ^ min x.r y.r * y.u % p ^ min x.r y.r
        ≡ x.u * modInv y.u (p ^ min x.r y.r) % p ^ min x.r y.r * y.u
          [MOD p ^ min x.r y.r] := Nat.mod_modEq _ _
      _ ≡ x.u * modInv y.u (p ^ min x.r y.r) * y.u [MOD p ^ min x.r y.r] :=
          Nat.ModEq.mul_right y.u (Nat.mod_modEq _ _)
      _ = x.u * (y.u * modInv y.u (p ^ min x.r y.r)) := by ring
      _ ≡ x.u * 1 [MOD p ^ min x.r y.r] := Nat.ModEq.mul_left x.u hinv
      _ = x.u := Nat.mul_one x.u

/-- Claim C3, witness: instantiation over p = 3, cap = 1, on the unit
element. -/
theorem claim_C3_div_round_trip_witness :
    CRApprox.eqAbs
      (((⟨0, 1, 1, by norm_num, by norm_num, by norm_num, by norm_num⟩ : CRElt 3 1).div
          ⟨0, 1, 1, by norm_num, by norm_num, by norm_num, by norm_num⟩).mul
        ⟨0, 1, 1, by norm_num, by norm_num, by norm_num, by norm_num⟩).toApprox
      (⟨0, 1, 1, by norm_num, by norm_num, by norm_num, by norm_num⟩ :
        CRElt 3 1).toApprox (0 + (min 1 1 : ℤ)) = true :=
  (@claim_C3_div_round_trip 3 1 ⟨by norm_num⟩
    ⟨0, 1, 1, by norm_num, by norm_num, by norm_num, by norm_num⟩
    ⟨0, 1, 1, by norm_num, by norm_num, by norm_num, by norm_num⟩).1

/-- Auxiliary binomial expansion to second order: `(y + t)^(n+1)` equals
`y^(n+1) + (n+1)·y^n·t` up to a multiple of `t^2`. -/
theorem sub_pow_expand (y t : ℤ) (n : ℕ) :
    ∃ s : ℤ, (y + t) ^ (n + 1) = y ^ (n + 1) + (n + 1) * y ^ n * t + t ^ 2 * s := by
  induction n with
  | zero =>
    exact ⟨0, by ring⟩
  | succ k ih =>
    obtain ⟨s, hs⟩ := ih
    refine ⟨(k + 1) * y ^ k + s * y + t * s, ?_⟩
    have : (y + t) ^ (k + 1 + 1) = (y + t) ^ (k + 1) * (y + t) := by ring
    rw [this, hs]
    push_cast
    ring

/-- Auxiliary: Fermat's little theorem over the integers, for a natural
base. -/
theorem int_fermat (p : ℕ) (hp : p.Prime) (a : ℕ) : (p : ℤ) ∣ (a : ℤ) ^ p - a := by
  haveI : Fact p.Prime := ⟨hp⟩
  have h2 : (((a : ℤ) ^ p - a : ℤ) : ZMod p) = 0 := by
    push_cast
    rw [ZMod.pow_card]
    ring
  exact (ZMod.intCast_zmod_eq_zero_iff_dvd _ p).mp h2

/-- Auxiliary: the cast of `newton_f` to the integers. -/
theorem newton_f_cast (p y : ℕ) (hp : p ≠ 0) : (newton_f p y : ℤ) = (y : ℤ) ^ p - y := by
  unfold newton_f
  have h : y ≤ y ^ p := Nat.le_self_pow hp y
  push_cast [h]
  ring

/-- Auxiliary: one Newton step at least squares the precision to which the
current iterate is a root of `y^p - y`, modulo the working precision, and
does not move the iterate modulo `p`. -/
theorem newton_step_quadratic (p N : ℕ) (hp : p.Prime) (hN : 1 ≤ N) (y m : ℕ) (hm : 1 ≤ m)
    (hf : (p : ℤ) ^ m ∣ (y : ℤ) ^ p - y) :
    ((p : ℤ) ^ min (2 * m) N ∣
      (newton_step p N y : ℤ) ^ p - newton_step p N y)
  ∧ (newton_step p N y : ℤ) ≡ y [ZMOD p] := by
  have hppos : 0 < p := hp.pos
  have hp1 : (1 : ℤ) < p := by exact_mod_cast hp.one_lt
  have hqpos : 0 < p ^ N := pow_pos hppos N
  have hq1 : 1 ≤ p ^ N := hqpos
  have hpdvdq : (p : ℤ) ∣ (p : ℤ) ^ N := dvd_pow_self (p : ℤ) (by omega)
  set Y : ℤ := (y : ℤ) with hY
  set d : ℕ := (p * y ^ (p - 1) + (p ^ N - 1)) % p ^ N with hd
  -- congruence of the derivative value d
  have hdcong : (d : ℤ) ≡ p * Y ^ (p - 1) - 1 [ZMOD (p : ℤ) ^ N] := by
    have h1 : (d : ℤ) ≡ ((p * y ^ (p - 1) + (p ^ N - 1) : ℕ) : ℤ) [ZMOD (p : ℤ) ^ N] := by
      rw [hd]
      have := (Int.natCast_modEq_iff).mpr (Nat.mod_modEq (p * y ^ (p - 1) + (p ^ N - 1)) (p ^ N))
      exact_mod_cast this
    have h2 : ((p * y ^ (p - 1) + (p ^ N - 1) : ℕ) : ℤ) =
        p * Y ^ (p - 1) + ((p : ℤ) ^ N - 1) := by
      push_cast [hq1]
      ring
    have h3 : p * Y ^ (p - 1) + ((p : ℤ) ^ N - 1) ≡
        p * Y ^ (p - 1) - 1 [ZMOD (p : ℤ) ^ N] := by
      have hz : ((p : ℤ) ^ N) ≡ 0 [ZMOD (p : ℤ) ^ N] := (Int.modEq_zero_iff_dvd).mpr dvd_rfl
      calc p * Y ^ (p - 1) + ((p : ℤ) ^ N - 1)
          = (p : ℤ) ^ N + (p * Y ^ (p - 1) - 1) := by ring
        _ ≡ 0 + (p * Y ^ (p - 1) - 1) [ZMOD (p : ℤ) ^ N] := hz.add_right _
        _ = p * Y ^ (p - 1) - 1 := by ring
    have h4 : (d : ℤ) ≡ p * Y ^ (p - 1) + ((p : ℤ) ^ N - 1) [ZMOD (p : ℤ) ^ N] := by
      rw [← h2]
      exact h1
    exact h4.trans h3
  -- p does not divide d
  have hdnd : ¬ p ∣ d := by
    intro hdvd
    have h0 : (d : ℤ) ≡ 0 [ZMOD (p : ℤ)] :=
      (Int.modEq_zero_iff_dvd).mpr (by exact_mod_cast hdvd)
    have h1 : (d : ℤ) ≡ p * Y ^ (p - 1) - 1 [ZMOD (p : ℤ)] := hdcong.of_dvd hpdvdq
    have h2 : (p : ℤ) * Y ^ (p - 1) ≡ 0 [ZMOD (p : ℤ)] :=
      (Int.modEq_zero_iff_dvd).mpr (dvd_mul_right _ _)
    have h3 : (0 : ℤ) ≡ 0 - 1 [ZMOD (p : ℤ)] :=
      h0.symm.trans (h1.trans (h2.sub_right 1))
    have h4 : (p : ℤ) ∣ -1 := by
      have := h3.dvd
      simpa using this
    have h5 : (p : ℤ) ∣ 1 := (dvd_neg).mp h4
    have := Int.le_of_dvd one_pos h5
    omega
  -- the modular inverse of d
  have hco : Nat.Coprime d (p ^ N) :=
    Nat.Coprime.pow_right _ (Nat.coprime_comm.mp (hp.coprime_iff_not_dvd.mpr hdnd))
  set e : ℕ := modInv d (p ^ N) with he
  have hinv : (d : ℤ) * e ≡ 1 [ZMOD (p : ℤ) ^ N] := by
    have h := modInv_mul hco hqpos.ne'
    have h2 := (Int.natCast_modEq_iff).mpr h
    push_cast at h2
    exact_mod_cast h2
  -- the step is congruent to y - t for t the Newton correction
  set t : ℤ := (Y ^ p - Y) * e with ht
  set Tn : ℕ := newton_f p y % p ^ N * e % p ^ N with hTn
  have hTlt : Tn < p ^ N := Nat.mod_lt _ hqpos
  have hstep : (newton_step p N y : ℤ) ≡ Y - t [ZMOD (p : ℤ) ^ N] := by
    have h1 : (newton_step p N y : ℤ) ≡ ((y + (p ^ N - Tn) : ℕ) : ℤ) [ZMOD (p : ℤ) ^ N] := by
      have := (Int.natCast_modEq_iff).mpr (Nat.mod_modEq (y + (p ^ N - Tn)) (p ^ N))
      exact_mod_cast this
    have h2 : ((y + (p ^ N - Tn) : ℕ) : ℤ) = Y + ((p : ℤ) ^ N - Tn) := by
      push_cast [hTlt.le]
      ring
    have h3 : (Tn : ℤ) ≡ t [ZMOD (p : ℤ) ^ N] := by
      have ha : (Tn : ℤ) ≡ ((newton_f p y % p ^ N * e : ℕ) : ℤ) [ZMOD (p : ℤ) ^ N] := by
        have := (Int.natCast_modEq_iff).mpr (Nat.mod_modEq (newton_f p y % p ^ N * e) (p ^ N))
        exact_mod_cast this
      have hb : ((newton_f p y % p ^ N : ℕ) : ℤ) ≡ (newton_f p y : ℤ) [ZMOD (p : ℤ) ^ N] := by
        have := (Int.natCast_modEq_iff).mpr (Nat.mod_modEq (newton_f p y) (p ^ N))
        exact_mod_cast this
      calc (Tn : ℤ) ≡ ((newton_f p y % p ^ N * e : ℕ) : ℤ) [ZMOD (p : ℤ) ^ N] := ha
        _ = ((newton_f p y % p ^ N : ℕ) : ℤ) * e := by push_cast; ring
        _ ≡ (newton_f p y : ℤ) * e [ZMOD (p : ℤ) ^ N] := hb.mul_right _
        _ = t := by rw [newton_f_cast p y hppos.ne']
    have hz : ((p : ℤ) ^ N) ≡ 0 [ZMOD (p : ℤ) ^ N] := (Int.modEq_zero_iff_dvd).mpr dvd_rfl
    calc (newton_step p N y : ℤ)
        ≡ Y + ((p : ℤ) ^ N - Tn) [ZMOD (p : ℤ) ^ N] := by rw [← h2]; exact h1
      _ = (p : ℤ) ^ N + (Y - Tn) := by ring
      _ ≡ 0 + (Y - Tn) [ZMOD (p : ℤ) ^ N] := hz.add_right _
      _ = Y - Tn := by ring
      _ ≡ Y - t [ZMOD (p : ℤ) ^ N] := (Int.ModEq.sub_left Y h3)
  -- expansion of f at y - t
  obtain ⟨k, hk⟩ : ∃ k, p = k + 1 := ⟨p - 1, by omega⟩
  obtain ⟨s, hs⟩ := sub_pow_expand Y (-t) k
  have hexp : (Y - t) ^ p - (Y - t) = (Y ^ p - Y) - t * ((p : ℤ) * Y ^ (p - 1) - 1) + t ^ 2 * s := by
    have h1 : (Y - t) ^ p = (Y + -t) ^ (k + 1) := by
      rw [← hk]
      ring_nf
    have h2 : Y ^ (k + 1) = Y ^ p := by rw [← hk]
    have h3 : Y ^ k = Y ^ (p - 1) := by
      rw [show p - 1 = k from by omega]
    have h4 : ((k : ℤ) + 1) = (p : ℤ) := by omega
    rw [h1, hs, h2, h3, h4]
    ring
  -- t * d recovers f(y) modulo the working precision
  have htd : t * ((p : ℤ) * Y ^ (p - 1) - 1) ≡ Y ^ p - Y [ZMOD (p : ℤ) ^ N] := by
    calc t * ((p : ℤ) * Y ^ (p - 1) - 1)
        ≡ t * d [ZMOD (p : ℤ) ^ N] := Int.ModEq.mul_left t hdcong.symm
      _ = (Y ^ p - Y) * ((d : ℤ) * e) := by rw [ht]; ring
      _ ≡ (Y ^ p - Y) * 1 [ZMOD (p : ℤ) ^ N] := Int.ModEq.mul_left _ hinv
      _ = Y ^ p - Y := by ring
  -- f at the step is congruent to t^2 * s
  have hfS2 : (newton_step p N y : ℤ) ^ p - newton_step p N y ≡ t ^ 2 * s
      [ZMOD (p : ℤ) ^ N] := by
    calc (newton_step p N y : ℤ) ^ p - newton_step p N y
        ≡ (Y - t) ^ p - (Y - t) [ZMOD (p : ℤ) ^ N] := (hstep.pow p).sub hstep
      _ = (Y ^ p - Y) - t * ((p : ℤ) * Y ^ (p - 1) - 1) + t ^ 2 * s := hexp
      _ ≡ (Y ^ p - Y) - (Y ^ p - Y) + t ^ 2 * s [ZMOD (p : ℤ) ^ N] :=
          ((Int.ModEq.sub_left _ htd).add_right _)
      _ = t ^ 2 * s := by ring
  -- divisibility transfer
  have hdvdt : (p : ℤ) ^ m ∣ t := ht ▸ hf.mul_right _
  have hdvdt2 : (p : ℤ) ^ (2 * m) ∣ t ^ 2 * s := by
    have h1 : (p : ℤ) ^ (2 * m) ∣ t ^ 2 := by
      rw [two_mul, pow_add, pow_two]
      exact mul_dvd_mul hdvdt hdvdt
    exact h1.mul_right s
  have hmin : (p : ℤ) ^ min (2 * m) N ∣ t ^ 2 * s :=
    (pow_dvd_pow _ (min_le_left _ _)).trans hdvdt2
  have hminq : (p : ℤ) ^ min (2 * m) N ∣ (p : ℤ) ^ N := pow_dvd_pow _ (min_le_right _ _)
  refine ⟨?_, ?_⟩
  · have hdiff : (p : ℤ) ^ N ∣
        t ^ 2 * s - ((newton_step p N y : ℤ) ^ p - newton_step p N y) := hfS2.dvd
    have h9 : ((newton_step p N y : ℤ) ^ p - newton_step p N y) =
        t ^ 2 * s - (t ^ 2 * s - ((newton_step p N y : ℤ) ^ p - newton_step p N y)) := by
      ring
    rw [h9]
    exact dvd_sub hmin (dvd_trans hminq hdiff)
  · have hSp : (newton_step p N y : ℤ) ≡ Y - t [ZMOD (p : ℤ)] := hstep.of_dvd hpdvdq
    have htp : t ≡ 0 [ZMOD (p : ℤ)] :=
      (Int.modEq_zero_iff_dvd).mpr
        (dvd_trans (dvd_pow_self (p : ℤ) (by omega : m ≠ 0)) hdvdt)
    calc (newton_step p N y : ℤ) ≡ Y - t [ZMOD (p : ℤ)] := hSp
      _ ≡ Y - 0 [ZMOD (p : ℤ)] := Int.ModEq.sub_left Y htp
      _ = Y := by ring

/-- Auxiliary: the Newton loop preserves the residue of the iterate and at
least doubles, per step, the precision to which it is a root of `y^p - y`,
up to the working precision. -/
theorem teich_loop_invariant (p N : ℕ) (hp : p.Prime) (hN : 1 ≤ N) :
    ∀ (fuel y m : ℕ), 1 ≤ m →
      ((p : ℤ) ^ min m N ∣ (y : ℤ) ^ p - y) →
      ((p : ℤ) ^ min (2 ^ fuel * m) N ∣
        (teich_loop p N fuel y : ℤ) ^ p - teich_loop p N fuel y)
    ∧ (teich_loop p N fuel y : ℤ) ≡ y [ZMOD (p : ℤ)] := by
  intro fuel
  induction fuel with
  | zero =>
    intro y m hm hf
    constructor
    · rw [pow_zero, one_mul]
      exact hf
    · exact Int.ModEq.refl _
  | succ n ih =>
    intro y m hm hf
    by_cases hdone : newton_f p y % p ^ N = 0
    · have hdvdN : (p : ℤ) ^ N ∣ (y : ℤ) ^ p - y := by
        have h1 : (p ^ N : ℕ) ∣ newton_f p y := Nat.dvd_of_mod_eq_zero hdone
        have h2 : ((p ^ N : ℕ) : ℤ) ∣ (newton_f p y : ℤ) := Int.natCast_dvd_natCast.mpr h1
        rw [newton_f_cast p y hp.pos.ne'] at h2
        exact_mod_cast h2
      have heq : teich_loop p N (n + 1) y =
          if newton_f p y % p ^ N = 0 then y else teich_loop p N n (newton_step p N y) := rfl
      have hres : teich_loop p N (n + 1) y = y := by
        rw [heq, if_pos hdone]
      rw [hres]
      exact ⟨dvd_trans (pow_dvd_pow _ (min_le_right _ _)) hdvdN, Int.ModEq.refl _⟩
    · have heq : teich_loop p N (n + 1) y =
          if newton_f p y % p ^ N = 0 then y else teich_loop p N n (newton_step p N y) := rfl
      have hres : teich_loop p N (n + 1) y = teich_loop p N n (newton_step p N y) := by
        rw [heq, if_neg hdone]
      have hstep := newton_step_quadratic p N hp hN y (min m N) (le_min hm hN) hf
      have hrec := ih (newton_step p N y) (2 * min m N) (by omega) hstep.1
      rw [hres]
      constructor
      · refine dvd_trans (pow_dvd_pow _ ?_) hrec.1
        have h0 : 0 < 2 ^ n := pow_pos (by norm_num) n
        rcases le_total m N with hmn | hnm
        · rw [min_eq_left hmn, show 2 ^ (n + 1) * m = 2 ^ n * (2 * m) from by ring]
        · rw [min_eq_right hnm]
          have h1 : N ≤ 2 ^ n * (2 * N) :=
            le_trans (by omega) (Nat.le_mul_of_pos_left (2 * N) h0)
          calc min (2 ^ (n + 1) * m) N ≤ N := min_le_right _ _
            _ = min (2 ^ n * (2 * N)) N := (min_eq_right h1).symm
      · exact hrec.2.trans hstep.2

/-- Auxiliary: the Teichmuller lift of `x` at precision `N` is a root of
`y^p - y` modulo `p ^ N` and has the residue of `x`. -/
theorem teichmullerNat_spec (p N x : ℕ) (hp : p.Prime) (hN : 1 ≤ N) :
    ((p : ℤ) ^ N ∣ (teichmullerNat p N x : ℤ) ^ p - teichmullerNat p N x)
  ∧ teichmullerNat p N x ≡ x [MOD p] := by
  have hbase : (p : ℤ) ^ min 1 N ∣ ((x % p ^ N : ℕ) : ℤ) ^ p - (x % p ^ N : ℕ) := by
    rw [min_eq_left hN, pow_one]
    exact int_fermat p hp (x % p ^ N)
  have h := teich_loop_invariant p N hp hN N (x % p ^ N) 1 le_rfl hbase
  have hT : teichmullerNat p N x = teich_loop p N N (x % p ^ N) := rfl
  constructor
  · rw [hT]
    refine dvd_trans (pow_dvd_pow _ ?_) h.1
    have h2 : N < 2 ^ N := Nat.lt_two_pow N
    rw [mul_one]
    omega
  · have h1 : teichmullerNat p N x ≡ x % p ^ N [MOD p] := by
      rw [hT]
      exact (Int.natCast_modEq_iff).mp (by exact_mod_cast h.2)
    have h2 : x % p ^ N ≡ x [MOD p] :=
      (Nat.mod_modEq x (p ^ N)).of_dvd (dvd_pow_self p (by omega))
    exact h1.trans h2

/-- Claim C6: the Teichmuller lift `y = teichmuller(x)` satisfies `y^q = y`
to the working precision, where `q` is the order of the ring's residue
field, and `y` has the same residue as `x`. -/
theorem claim_C6_teichmuller (R : pAdicRing) (x : ℕ) (hp : R.prime.Prime)
    (hN : 1 ≤ R.precision_cap) :
    teichmuller R x none ^ residue_class_field_order R ≡ teichmuller R x none
      [MOD R.prime ^ R.precision_cap]
  ∧ teichmuller R x none ≡ x [MOD R.prime] := by
  have hspec := teichmullerNat_spec R.prime R.precision_cap x hp hN
  constructor
  · have h1 := hspec.1
    have h2 : (teichmullerNat R.prime R.precision_cap x : ℤ) ^ R.prime ≡
        (teichmullerNat R.prime R.precision_cap x : ℤ)
        [ZMOD (R.prime : ℤ) ^ R.precision_cap] :=
      (Int.modEq_iff_dvd).mpr (by simpa using (dvd_neg.mpr h1))
    have h3 : teichmullerNat R.prime R.precision_cap x ^ R.prime ≡
        teichmullerNat R.prime R.precision_cap x
        [MOD R.prime ^ R.precision_cap] :=
      (Int.natCast_modEq_iff).mp (by exact_mod_cast h2)
    exact h3
  · exact hspec.2

/-- Claim C6, witness: instantiation over the capped-relative ring with
p = 3 and precision cap 2, at x = 5. -/
theorem claim_C6_teichmuller_witness :
    teichmuller ⟨3, 2, Variant.cappedRel, 0, false⟩ 5 none ^
        residue_class_field_order ⟨3, 2, Variant.cappedRel, 0, false⟩ ≡
      teichmuller ⟨3, 2, Variant.cappedRel, 0, false⟩ 5 none [MOD 3 ^ 2]
  ∧ teichmuller ⟨3, 2, Variant.cappedRel, 0, false⟩ 5 none ≡ 5 [MOD 3] :=
  claim_C6_teichmuller ⟨3, 2, Variant.cappedRel, 0, false⟩ 5 (by norm_num) (by norm_num)

/-- Auxiliary: the canonical value of `p` times anything in `ZMod (p^r)` is
divisible by `p`. -/
theorem val_p_mul_zmod (p r : ℕ) (hp : p.Prime) (hr : 1 ≤ r) (t : ZMod (p ^ r)) :
    p ∣ ((p : ZMod (p ^ r)) * t).val := by
  haveI : NeZero (p ^ r) := ⟨(pow_pos hp.pos r).ne'⟩
  have h1 : (p : ZMod (p ^ r)) * t = ((p * t.val : ℕ) : ZMod (p ^ r)) := by
    push_cast
    rw [ZMod.natCast_rightInverse t]
  rw [h1, ZMod.val_natCast]
  exact (Nat.dvd_mod_iff (dvd_pow_self p (by omega))).mpr (Dvd.intro _ rfl)

/-- Auxiliary: the truncated logarithm series of a 1-unit `1 + z` with
`p ∣ z` has value divisible by `p` (valuation at least one). -/
theorem log_series_raw_dvd (p r z : ℕ) (hp : p.Prime) (hr : 1 ≤ r) (hz : p ∣ z) :
    p ∣ (log_series_raw p r z).val := by
  obtain ⟨z0, hz0⟩ := hz
  have hterm : ∀ i, (-1 : ZMod (p ^ r)) ^ i *
      ((z ^ (i + 1) / p ^ padicValNat p (i + 1) : ℕ) : ZMod (p ^ r)) *
      (((i + 1) / p ^ padicValNat p (i + 1) : ℕ) : ZMod (p ^ r))⁻¹ =
      (p : ZMod (p ^ r)) * ((-1 : ZMod (p ^ r)) ^ i *
        ((z0 ^ (i + 1) * p ^ (i + 1 - padicValNat p (i + 1) - 1) : ℕ) : ZMod (p ^ r)) *
        (((i + 1) / p ^ padicValNat p (i + 1) : ℕ) : ZMod (p ^ r))⁻¹) := by
    intro i
    have hvk : padicValNat p (i + 1) < i + 1 := by
      have hd : p ^ padicValNat p (i + 1) ∣ (i + 1) := pow_padicValNat_dvd
      have hle : p ^ padicValNat p (i + 1) ≤ i + 1 := Nat.le_of_dvd (by omega) hd
      by_contra hc
      push_neg at hc
      have h1 : p ^ (i + 1) ≤ p ^ padicValNat p (i + 1) :=
        Nat.pow_le_pow_right hp.pos hc
      have h2 : i + 1 < 2 ^ (i + 1) := Nat.lt_two_pow _
      have h3 : 2 ^ (i + 1) ≤ p ^ (i + 1) := Nat.pow_le_pow_left hp.two_le _
      omega
    have hdiv : z ^ (i + 1) / p ^ padicValNat p (i + 1) =
        z0 ^ (i + 1) * (p ^ (i + 1) / p ^ padicValNat p (i + 1)) := by
      rw [hz0, mul_pow, Nat.mul_comm, Nat.mul_div_assoc _ (pow_dvd_pow p hvk.le)]
    have hdiv2 : p ^ (i + 1) / p ^ padicValNat p (i + 1) =
        p ^ (i + 1 - padicValNat p (i + 1)) := Nat.pow_div hvk.le hp.pos
    have hsplit : z0 ^ (i + 1) * p ^ (i + 1 - padicValNat p (i + 1)) =
        p * (z0 ^ (i + 1) * p ^ (i + 1 - padicValNat p (i + 1) - 1)) := by
      have h1 : p ^ (i + 1 - padicValNat p (i + 1)) =
          p * p ^ (i + 1 - padicValNat p (i + 1) - 1) := by
        rw [← pow_succ']
        congr 1
        omega
      rw [h1]
      ring
    rw [hdiv, hdiv2, hsplit]
    push_cast
    ring
  unfold log_series_raw
  rw [Finset.sum_congr rfl (fun i _ => hterm i), ← Finset.mul_sum]
  exact val_p_mul_zmod p r hp hr _

/-- Auxiliary: splitting off the Teichmuller part of a unit leaves a
1-unit: the value of `u / teich(u) - 1` in `ZMod (p^r)` is divisible by
`p`. -/
theorem log_z_dvd (p r u : ℕ) (hp : p.Prime) (hr : 1 ≤ r) (hu : ¬ p ∣ u) :
    p ∣ ((u : ZMod (p ^ r)) * ((teichmullerNat p r u : ℕ) : ZMod (p ^ r))⁻¹ - 1).val := by
  haveI : NeZero (p ^ r) := ⟨(pow_pos hp.pos r).ne'⟩
  have hres : teichmullerNat p r u ≡ u [MOD p] := (teichmullerNat_spec p r u hp hr).2
  have hTnd : ¬ p ∣ teichmullerNat p r u := by
    intro hd
    have h1 : (0 : ℕ) ≡ u [MOD p] := ((Nat.modEq_zero_iff_dvd).mpr hd).symm.trans hres
    exact hu ((Nat.modEq_zero_iff_dvd).mp h1.symm)
  have hco : Nat.Coprime (teichmullerNat p r u) (p ^ r) :=
    Nat.Coprime.pow_right _ (Nat.coprime_comm.mp (hp.coprime_iff_not_dvd.mpr hTnd))
  have hinv : ((teichmullerNat p r u : ℕ) : ZMod (p ^ r)) *
      ((teichmullerNat p r u : ℕ) : ZMod (p ^ r))⁻¹ = 1 :=
    ZMod.coe_mul_inv_eq_one _ hco
  have hdiff : (p : ℤ) ∣ (u : ℤ) - teichmullerNat p r u := by
    have h2 := (Int.natCast_modEq_iff).mpr hres
    exact_mod_cast h2.dvd
  obtain ⟨c, hc⟩ := hdiff
  have h1 : (u : ZMod (p ^ r)) - ((teichmullerNat p r u : ℕ) : ZMod (p ^ r)) =
      (p : ZMod (p ^ r)) * ((c : ℤ) : ZMod (p ^ r)) := by
    have h2 : (((u : ℤ) - teichmullerNat p r u : ℤ) : ZMod (p ^ r)) =
        (((p : ℤ) * c : ℤ) : ZMod (p ^ r)) := by
      rw [hc]
    push_cast at h2
    exact h2
  have hkey : (u : ZMod (p ^ r)) * ((teichmullerNat p r u : ℕ) : ZMod (p ^ r))⁻¹ - 1 =
      (p : ZMod (p ^ r)) * (((c : ℤ) : ZMod (p ^ r)) *
        ((teichmullerNat p r u : ℕ) : ZMod (p ^ r))⁻¹) := by
    calc (u : ZMod (p ^ r)) * ((teichmullerNat p r u : ℕ) : ZMod (p ^ r))⁻¹ - 1
        = (u : ZMod (p ^ r)) * ((teichmullerNat p r u : ℕ) : ZMod (p ^ r))⁻¹ -
          ((teichmullerNat p r u : ℕ) : ZMod (p ^ r)) *
          ((teichmullerNat p r u : ℕ) : ZMod (p ^ r))⁻¹ := by rw [hinv]
      _ = ((u : ZMod (p ^ r)) - ((teichmullerNat p r u : ℕ) : ZMod (p ^ r))) *
          ((teichmullerNat p r u : ℕ) : ZMod (p ^ r))⁻¹ := by ring
      _ = (p : ZMod (p ^ r)) * (((c : ℤ) : ZMod (p ^ r)) *
          ((teichmullerNat p r u : ℕ) : ZMod (p ^ r))⁻¹) := by rw [h1]; ring
  rw [hkey]
  exact val_p_mul_zmod p r hp hr _

/-- Auxiliary: the valuation component of `normalize` is positive when the
raw value is divisible by `p` and the working precision is positive. -/
theorem normalize_pos_of_dvd (p N m : ℕ) (hp : p.Prime) (hN : 1 ≤ N) (hdvd : p ∣ m) :
    1 ≤ (normalize p N m).1 := by
  unfold normalize
  split_ifs with h
  · simpa using hN
  · simp only
    have hm : m ≠ 0 := fun h0 => h (by rw [h0, Nat.zero_mod])
    haveI : Fact p.Prime := ⟨hp⟩
    exact one_le_padicValNat_of_dvd (Nat.pos_of_ne_zero hm) hdvd

/-- Claim C8: for every nonzero element, `log` with the zero branch for `p`
has valuation strictly greater than zero, and under the CappedAbsolute and
CappedRelative variants the absolute precision of the logarithm equals the
relative precision of the input. -/
theorem claim_C8_log_precision (p cap : ℕ) [hp : Fact p.Prime] :
    (∀ x : CRElt p cap,
      0 < (CRElt.log x).v ∧ (CRElt.log x).absprec = (x.precision_relative : ℤ))
  ∧ (∀ a : CAElt p cap, a.x ≠ 0 →
      0 < (CAElt.log a).v ∧ (CAElt.log a).absprec = (a.precision_relative : ℤ)) := by
  have main : ∀ r u : ℕ, 1 ≤ r → ¬ p ∣ u →
      0 < (CRApprox.ofRaw p 0 r (log_unit p r u)).v
    ∧ (CRApprox.ofRaw p 0 r (log_unit p r u)).absprec = (r : ℤ) := by
    intro r u hr hu
    have hdvd : p ∣ log_unit p r u := by
      unfold log_unit
      exact log_series_raw_dvd p r _ hp.out hr (log_z_dvd p r u hp.out hr hu)
    have hpos := normalize_pos_of_dvd p r (log_unit p r u) hp.out hr hdvd
    have hsum := @normalize_fst_add_snd p hp r (log_unit p r u)
    constructor
    · show 0 < (0 : ℤ) + ((normalize p r (log_unit p r u)).1 : ℤ)
      omega
    · show (0 : ℤ) + ((normalize p r (log_unit p r u)).1 : ℤ) +
        ((normalize p r (log_unit p r u)).2.2 : ℤ) = (r : ℤ)
      omega
  constructor
  · intro x
    exact main x.r x.u x.r_pos x.u_unit
  · intro a ha
    have hp1 : 1 < p := hp.out.one_lt
    have hval : a.valuation = padicValNat p a.x := if_neg ha
    have hvlt : padicValNat p a.x < a.N := val_lt_of_lt_pow hp1 ha a.x_lt
    have hr : 1 ≤ a.precision_relative := by
      unfold CAElt.precision_relative
      omega
    have hxdvd : p ^ padicValNat p a.x ∣ a.x := pow_padicValNat_dvd
    have hu0 : a.unit_part ≠ 0 := by
      unfold CAElt.unit_part
      have hle : p ^ padicValNat p a.x ≤ a.x := Nat.le_of_dvd (Nat.pos_of_ne_zero ha) hxdvd
      have := Nat.div_pos hle (pow_pos hp.out.pos _)
      omega
    have huval : padicValNat p a.unit_part = 0 := by
      unfold CAElt.unit_part
      rw [padicValNat.div_pow hxdvd]
      omega
    have hu : ¬ p ∣ a.unit_part := by
      intro hd
      have := one_le_padicValNat_of_dvd (Nat.pos_of_ne_zero hu0) hd
      omega
    exact main a.precision_relative a.unit_part hr hu

/-- Claim C8, witness: instantiation over p = 3, cap = 1, on the unit
element in each of the two models, with the nonzeroness hypothesis
discharged concretely. -/
theorem claim_C8_log_precision_witness :
    (0 < (CRElt.log (⟨0, 1, 1, by norm_num, by norm_num, by norm_num, by norm_num⟩ :
        CRElt 3 1)).v)
  ∧ (0 < (CAElt.log (⟨1, 1, by norm_num, by norm_num⟩ : CAElt 3 1)).v) :=
  ⟨((@claim_C8_log_precision 3 1 ⟨by norm_num⟩).1
      ⟨0, 1, 1, by norm_num, by norm_num, by norm_num, by norm_num⟩).1,
   ((@claim_C8_log_precision 3 1 ⟨by norm_num⟩).2
      ⟨1, 1, by norm_num, by norm_num⟩ (by norm_num)).1⟩

end PadicSpec
